import Mathlib

/-!
Verification development for the katana repository core: the custom-edge-cut
graph partitioner (src/libdist/include/galois/graphs/DistributedGraph_CustomEdgeCut.h),
the speculative parallel iterator (src/include/Galois/Runtime/ParallelWork.h),
and the lazy uninitialised array (src/include/Galois/LazyArray.h).

Each C++ function relevant to the claims is shallowly embedded as an executable
Lean definition; machine integers are modelled as Nat (no claim here depends on
integer wrap-around), fallible code returns Option/Except, and stateful loops
become folds over explicit state records.
-/

namespace Katana

/-! ### LazyArray (src/include/Galois/LazyArray.h)

The source of `at` (lines 91-100) is

  reference at(size_type __n) {
    if (__n >= _Size)
      throw std::out_of_range("lazyArray::at");
    return get(__n);
  }

Note that `get(__n)` has type `_Tp*` while the declared return type is
`_Tp& (= reference)`; the dereference `*` present in `operator[]` directly above
is missing, so any instantiation of `at` is ill-formed C++ and fails to
compile.  The definition below embeds the evident intent (the guard followed by
the element access that `operator[]` performs): the array contents are the list
of constructed slots, the result carries the element together with the
(unmodified) contents. -/

def lazyArrayAt {T : Type} [Inhabited T] (data : List T) (n : Nat) :
    Except String (T × List T) :=
  if n ≥ data.length then Except.error "lazyArray::at"
  else Except.ok (data.getD n default, data)

/-! ### find_hostID over a received master list
(DistributedGraph_CustomEdgeCut.h lines 633-640)

  uint32_t find_hostID(std::vector<uint64_t>& vec, uint64_t gid,
                       uint32_t from_hostID) {
    auto iter = std::lower_bound(vec.begin(), vec.end(), gid);
    if((*iter == gid) && (iter != vec.end())){
      return from_hostID;
    }
    return std::numeric_limits<uint32_t>::max();
  }

`lowerBoundIdx` is the index returned by `std::lower_bound` on a sorted
vector: the first position whose element is not less than `gid`, or the length
when every element is smaller.  The embedding returns `none` exactly when the
C++ code dereferences `vec.end()`: `&&` evaluates `*iter` first, so whenever
`lower_bound` returns the end iterator the read is out of bounds. -/

def lowerBoundIdx (vec : List Nat) (gid : Nat) : Nat :=
  match vec with
  | [] => 0
  | v :: rest => if v < gid then lowerBoundIdx rest gid + 1 else 0

def UINT32_MAX : Nat := 4294967295

def find_hostID_vec (vec : List Nat) (gid : Nat) (from_hostID : Nat) :
    Option Nat :=
  let i := lowerBoundIdx vec gid
  match vec.get? i with
  | none => none
  | some v =>
      if v = gid ∧ i ≠ vec.length then some from_hostID else some UINT32_MAX

/-! ### FillWork (ParallelWork.h lines 212-238) and AddInitialWork (170-175)

  FillWork(...) { int a = getSystemThreadPool().getActiveThreads();
                  dist = std::distance(b,e);
                  num = (dist + a - 1) / a; }
  void operator()(void) {
    int id = ThreadPool::getMyID();
    int A = std::min(num * id, dist);
    int B = std::min(num * (id + 1), dist);
    std::advance(b2, A); std::advance(e2, B);
    g.AddInitialWork(b2,e2,f); }

  bool AddInitialWork(Iter b, Iter e, Filter fil) {
    for(; b != e; ++b) if (fil(*b)) global_wl.push(*b); }

The worklist is modelled as a list with push appending at the back. -/

def fillNum (dist a : Nat) : Nat := (dist + a - 1) / a

def fillLo (dist a id : Nat) : Nat := min (fillNum dist a * id) dist

def fillHi (dist a id : Nat) : Nat := min (fillNum dist a * (id + 1)) dist

def AddInitialWork {V : Type} (fil : V → Bool) : List V → List V → List V
  | [], wl => wl
  | v :: rest, wl => AddInitialWork fil rest (if fil v then wl ++ [v] else wl)

def fillChunk {V : Type} (items : List V) (a id : Nat) : List V :=
  (items.drop (fillLo items.length a id)).take
    (fillHi items.length a id - fillLo items.length a id)

def fillWorkerRun {V : Type} (fil : V → Bool) (items : List V) (a id : Nat)
    (wl : List V) : List V :=
  AddInitialWork fil (fillChunk items a id) wl

theorem addInitialWork_eq_filter {V : Type} (fil : V → Bool) :
    ∀ (xs wl : List V), AddInitialWork fil xs wl = wl ++ xs.filter fil := by
  intro xs
  induction xs with
  | nil => intro wl; simp [AddInitialWork]
  | cons v rest ih =>
      intro wl
      by_cases h : fil v = true
      · simp [AddInitialWork, h, ih]
      · simp only [Bool.not_eq_true] at h
        simp [AddInitialWork, h, ih]

theorem fillNum_ceil (dist a : Nat) (ha : 1 ≤ a) :
    dist ≤ a * fillNum dist a ∧ a * fillNum dist a < dist + a := by
  have hmod := Nat.div_add_mod (dist + a - 1) a
  have hlt : (dist + a - 1) % a < a := Nat.mod_lt _ ha
  unfold fillNum
  omega

theorem fill_disjoint (dist a : Nat) (id1 id2 : Nat) (h : id1 < id2) :
    fillHi dist a id1 ≤ fillLo dist a id2 := by
  unfold fillHi fillLo
  have h1 : fillNum dist a * (id1 + 1) ≤ fillNum dist a * id2 :=
    Nat.mul_le_mul_left _ h
  exact min_le_min h1 (le_refl dist)

theorem fill_cover (dist a : Nat) (ha : 1 ≤ a) (k : Nat) (hk : k < dist) :
    ∃ id, id < a ∧ fillLo dist a id ≤ k ∧ k < fillHi dist a id := by
  obtain ⟨hle, _⟩ := fillNum_ceil dist a ha
  have hnum : 0 < fillNum dist a := by
    rcases Nat.eq_zero_or_pos (fillNum dist a) with h0 | h0
    · rw [h0, Nat.mul_zero] at hle; omega
    · exact h0
  refine ⟨k / fillNum dist a, ?_, ?_, ?_⟩
  · rw [Nat.div_lt_iff_lt_mul hnum]
    calc k < dist := hk
      _ ≤ a * fillNum dist a := hle
  · unfold fillLo
    have : fillNum dist a * (k / fillNum dist a) ≤ k := Nat.mul_div_le k _
    exact le_trans (min_le_left _ _) this
  · unfold fillHi
    have hdm := Nat.div_add_mod k (fillNum dist a)
    have hmlt : k % fillNum dist a < fillNum dist a := Nat.mod_lt _ hnum
    have hk2 : k < fillNum dist a * (k / fillNum dist a + 1) := by
      rw [Nat.mul_succ]; omega
    exact lt_min hk2 hk

/-- Property bundle for the initial fill phase, claim C9: the chunk size is the
round-up quotient, worker id's range is [min(num*id,dist), min(num*(id+1),dist)),
the ranges of ids 0..a-1 partition [0,dist), and each worker appends exactly the
filter-accepted items of its chunk, in order. -/
def fillFillsProp (V : Type) (a dist : Nat) : Prop :=
  (dist ≤ a * fillNum dist a ∧ a * fillNum dist a < dist + a) ∧
  (∀ id1 id2 : Nat, id1 < id2 → fillHi dist a id1 ≤ fillLo dist a id2) ∧
  (∀ k : Nat, k < dist → ∃ id, id < a ∧ fillLo dist a id ≤ k ∧ k < fillHi dist a id) ∧
  (∀ (fil : V → Bool) (items : List V) (wl : List V) (id : Nat),
      items.length = dist →
      fillWorkerRun fil items a id wl = wl ++ (fillChunk items a id).filter fil)

/-- Claim C9: in the initial fill phase with dist items and a active workers,
the chunk size is num = ceil(dist/a), worker id processes exactly
[min(num*id,dist), min(num*(id+1),dist)), those ranges are pairwise disjoint
and cover [0,dist), and each worker pushes to the global worklist exactly the
filter-accepted items of its chunk in iteration order. -/
theorem c9_fill_partition (V : Type) (a dist : Nat) (ha : 1 ≤ a) :
    fillFillsProp V a dist := by
  refine ⟨fillNum_ceil dist a ha, fill_disjoint dist a,
          fill_cover dist a ha, ?_⟩
  intro fil items wl id hlen
  unfold fillWorkerRun
  rw [addInitialWork_eq_filter]

/-- Witness for C9 at a = 2 workers and dist = 3 items over Nat. -/
theorem c9_fill_partition_witness : 1 ≤ 2 ∧ fillFillsProp Nat 2 3 :=
  ⟨by decide, c9_fill_partition Nat 2 3 (by decide)⟩

/-- Claim C10 (intended semantics of LazyArray::at): the access throws
out_of_range exactly when n >= Size, and for n < Size yields element n with the
stored contents unmodified.  The C++ source cannot exhibit this behaviour as
written: `at` returns `get(__n)` (a `_Tp*`) from a function declared to return
`_Tp&`, so every instantiation of `at` is rejected by the compiler; the missing
dereference (present in `operator[]`) is a slip. -/
theorem c10_lazyArray_at (T : Type) [Inhabited T] (data : List T) (n : Nat) :
    ((∃ msg, lazyArrayAt data n = Except.error msg) ↔ n ≥ data.length) ∧
    (n < data.length → lazyArrayAt data n = Except.ok (data.getD n default, data)) := by
  constructor
  · constructor
    · rintro ⟨msg, hmsg⟩
      by_contra hlt
      simp [lazyArrayAt, hlt] at hmsg
    · intro hge
      exact ⟨"lazyArray::at", by simp [lazyArrayAt, hge]⟩
  · intro hlt
    have hnot : ¬ n ≥ data.length := Nat.not_le_of_lt hlt
    simp [lazyArrayAt, hnot]

/-- Witness for C10: a concrete in-range and out-of-range access. -/
theorem c10_lazyArray_at_witness :
    lazyArrayAt [10, 20, 30] 1 = Except.ok (20, [10, 20, 30]) ∧
    (∃ msg, lazyArrayAt ([10, 20, 30] : List Nat) 3 = Except.error msg) :=
  ⟨(c10_lazyArray_at Nat [10, 20, 30] 1).2 (by decide),
   ((c10_lazyArray_at Nat [10, 20, 30] 3).1).2 (by decide)⟩

/-- Claim C7, failing input: with the sorted master list [5] and ghost gid 7
(greater than every element), std::lower_bound returns vec.end() and the code
evaluates `*iter` before checking `iter != vec.end()`, reading one past the end
of the vector; the embedding returns `none` exactly on that out-of-bounds
dereference.  The claim that the search never reads outside vec is therefore
violated by the code. -/
theorem c7_find_hostID_reads_past_end : find_hostID_vec [5] 7 1 = none := by
  decide

/-! ### Parallel executor: iteration commit and rollback
(ParallelWork.h lines 99-140)

The worklist and aborted list are modelled as lists with push appending at the
back; `break_happened` / `abort_happened` are the two flags; the user-facing
context carries the push buffer, the break flag and the per-iteration
allocator fill level; the conflict-tracking runtime context is modelled by the
counters of its start/commit/cancel calls; the Configurator trait booleans
(NeedsPush / NeedsBreak / NeedsPIA) select the optional bookkeeping exactly as
the `if (Configurator<Function>::...)` branches do. -/

structure UserContext (V : Type) where
  pushBuffer : List V
  breakFlag : Bool
  allocCount : Nat

structure RuntimeCnx where
  started : Nat
  committed : Nat
  cancelled : Nat

structure LoopStat where
  conflicts : Nat
  iterations : Nat

structure TLD (V : Type) where
  facing : UserContext V
  cnx : RuntimeCnx
  stat : LoopStat

structure ExecState (V : Type) where
  global_wl : List V
  aborted : List V
  break_happened : Bool
  abort_happened : Bool

structure Traits where
  NeedsPush : Bool
  NeedsBreak : Bool
  NeedsPIA : Bool

/-- Outcome of one call of the user operator `f(val, facing)`: the user-facing
context it leaves behind and whether it threw the conflict signal (caught as
`catch (int a)` in doProcess). -/
structure OpResult (V : Type) where
  facing : UserContext V
  conflict : Bool

def pushAll {V : Type} (wl : List V) (buf : List V) : List V :=
  buf.foldl (fun w v => w ++ [v]) wl

theorem pushAll_eq_append {V : Type} (buf : List V) :
    ∀ wl : List V, pushAll wl buf = wl ++ buf := by
  induction buf with
  | nil => intro wl; simp [pushAll]
  | cons v rest ih =>
      intro wl
      simp only [pushAll, List.foldl_cons] at *
      rw [ih (wl ++ [v]), List.append_assoc]
      rfl

/-- ForEachWork::finishIteration (lines 99-128), line by line: the aborting
block (cancel_iteration, inc_conflicts, aborted.push, abort_happened = 1,
reset of the break flag, clearing of the push buffer), then the NeedsPush
drain, the NeedsPIA allocator reset, the NeedsBreak propagation, and
commit_iteration when not aborting. -/
def finishIteration {V : Type} (tr : Traits) (aborting : Bool) (val : V)
    (es : ExecState V) (tld : TLD V) : ExecState V × TLD V :=
  let esA :=
    if aborting then
      { es with aborted := es.aborted ++ [val], abort_happened := true }
    else es
  let tldA :=
    if aborting then
      { tld with
          cnx := { tld.cnx with cancelled := tld.cnx.cancelled + 1 },
          stat := { tld.stat with conflicts := tld.stat.conflicts + 1 },
          facing := { tld.facing with breakFlag := false, pushBuffer := [] } }
    else tld
  let esB :=
    if tr.NeedsPush then
      { esA with global_wl := pushAll esA.global_wl tldA.facing.pushBuffer }
    else esA
  let tldB :=
    if tr.NeedsPush then
      { tldA with facing := { tldA.facing with pushBuffer := [] } }
    else tldA
  let tldC :=
    if tr.NeedsPIA then
      { tldB with facing := { tldB.facing with allocCount := 0 } }
    else tldB
  let esC :=
    if tr.NeedsBreak && tldC.facing.breakFlag then
      { esB with break_happened := true }
    else esB
  let tldD :=
    if !aborting then
      { tldC with cnx := { tldC.cnx with committed := tldC.cnx.committed + 1 } }
    else tldC
  (esC, tldD)

/-- ForEachWork::doProcess (lines 130-140): inc_iterations, start_iteration,
run the operator catching the conflict signal, then finishIteration. -/
def doProcess {V : Type} (tr : Traits) (f : V → UserContext V → OpResult V)
    (val : V) (es : ExecState V) (tld : TLD V) : ExecState V × TLD V :=
  let tld1 : TLD V :=
    { tld with
        stat := { tld.stat with iterations := tld.stat.iterations + 1 },
        cnx := { tld.cnx with started := tld.cnx.started + 1 } }
  let r := f val tld1.facing
  let tld2 := { tld1 with facing := r.facing }
  finishIteration tr r.conflict val es tld2

/-- Property bundle for a conflicted iteration, claim C5: the global worklist
is unchanged (no push-buffer item escapes), the global break flag is not
raised, the conflicts counter increments by exactly one, the item lands on the
aborted list with abort_happened set, and cancel_iteration (never
commit_iteration) is called. -/
def rollbackProp (V : Type) (tr : Traits) (f : V → UserContext V → OpResult V)
    (val : V) (es : ExecState V) (tld : TLD V) : Prop :=
  (doProcess tr f val es tld).1.global_wl = es.global_wl ∧
  (doProcess tr f val es tld).1.break_happened = es.break_happened ∧
  (doProcess tr f val es tld).2.stat.conflicts = tld.stat.conflicts + 1 ∧
  (doProcess tr f val es tld).1.aborted = es.aborted ++ [val] ∧
  (doProcess tr f val es tld).1.abort_happened = true ∧
  (doProcess tr f val es tld).2.cnx.cancelled = tld.cnx.cancelled + 1 ∧
  (doProcess tr f val es tld).2.cnx.committed = tld.cnx.committed

/-- Claim C5: whenever the operator raises the conflict signal, the iteration
is rolled back: nothing from its push buffer reaches the global worklist, its
break request is suppressed, conflicts increments by exactly one, and the work
item is pushed onto the aborted retry list with abort_happened set. -/
theorem c5_conflict_rollback (V : Type) (tr : Traits)
    (f : V → UserContext V → OpResult V) (val : V) (es : ExecState V)
    (tld : TLD V) (hconf : (f val tld.facing).conflict = true) :
    rollbackProp V tr f val es tld := by
  obtain ⟨p, b, pia⟩ := tr
  unfold rollbackProp doProcess finishIteration
  simp only []
  cases p <;> cases b <;> cases pia <;>
    simp [hconf, pushAll]

/-- Witness for C5: a concrete conflicting operator over Nat. -/
theorem c5_conflict_rollback_witness :
    ((fun (_ : Nat) (c : UserContext Nat) => OpResult.mk c true) 0
        (UserContext.mk [] false 0)).conflict = true ∧
    rollbackProp Nat (Traits.mk true true true)
      (fun _ c => OpResult.mk c true) 0
      (ExecState.mk [3] [] false false)
      (TLD.mk (UserContext.mk [] false 0) (RuntimeCnx.mk 0 0 0)
        (LoopStat.mk 0 0)) :=
  ⟨rfl, c5_conflict_rollback Nat (Traits.mk true true true)
      (fun _ c => OpResult.mk c true) 0
      (ExecState.mk [3] [] false false)
      (TLD.mk (UserContext.mk [] false 0) (RuntimeCnx.mk 0 0 0)
        (LoopStat.mk 0 0)) rfl⟩

/-- Property bundle for a committed iteration, claim C6: the push buffer is
drained (in order) into the global worklist and cleared, the per-iteration
allocator is reset, a set break signal raises the process-global break flag,
and commit_iteration (never cancel_iteration) is called exactly once. -/
def commitProp (V : Type) (tr : Traits) (f : V → UserContext V → OpResult V)
    (val : V) (es : ExecState V) (tld : TLD V) : Prop :=
  (doProcess tr f val es tld).1.global_wl =
      es.global_wl ++ (f val tld.facing).facing.pushBuffer ∧
  (doProcess tr f val es tld).2.facing.pushBuffer = [] ∧
  (doProcess tr f val es tld).2.facing.allocCount = 0 ∧
  ((f val tld.facing).facing.breakFlag = true →
      (doProcess tr f val es tld).1.break_happened = true) ∧
  (doProcess tr f val es tld).2.cnx.committed = tld.cnx.committed + 1 ∧
  (doProcess tr f val es tld).2.cnx.cancelled = tld.cnx.cancelled

/-- Claim C6: whenever the operator returns normally (no conflict signal), the
iteration commits exactly once: every push-buffer item is appended to the
global worklist and the buffer cleared, the allocator is reset, a set break
signal raises the global break flag, and commit_iteration (not
cancel_iteration) is called. -/
theorem c6_commit_once (V : Type) (tr : Traits)
    (f : V → UserContext V → OpResult V) (val : V) (es : ExecState V)
    (tld : TLD V) (hP : tr.NeedsPush = true) (hB : tr.NeedsBreak = true)
    (hA : tr.NeedsPIA = true)
    (hconf : (f val tld.facing).conflict = false) :
    commitProp V tr f val es tld := by
  obtain ⟨p, b, pia⟩ := tr
  simp only [] at hP hB hA
  subst hP hB hA
  unfold commitProp doProcess finishIteration
  simp [hconf, pushAll_eq_append]
  by_cases hbf : (f val tld.facing).facing.breakFlag = true <;>
    simp [hbf]

/-- Witness for C6: a concrete committing operator over Nat that pushes one
item and requests break. -/
theorem c6_commit_once_witness :
    (Traits.mk true true true).NeedsPush = true ∧
    (Traits.mk true true true).NeedsBreak = true ∧
    (Traits.mk true true true).NeedsPIA = true ∧
    ((fun (v : Nat) (c : UserContext Nat) =>
        OpResult.mk (UserContext.mk (c.pushBuffer ++ [v + 1]) true 5) false) 0
        (UserContext.mk [] false 0)).conflict = false ∧
    commitProp Nat (Traits.mk true true true)
      (fun v c => OpResult.mk (UserContext.mk (c.pushBuffer ++ [v + 1]) true 5) false)
      0 (ExecState.mk [3] [] false false)
      (TLD.mk (UserContext.mk [] false 0) (RuntimeCnx.mk 0 0 0)
        (LoopStat.mk 0 0)) :=
  ⟨rfl, rfl, rfl, rfl,
   c6_commit_once Nat (Traits.mk true true true)
      (fun v c => OpResult.mk (UserContext.mk (c.pushBuffer ++ [v + 1]) true 5) false)
      0 (ExecState.mk [3] [] false false)
      (TLD.mk (UserContext.mk [] false 0) (RuntimeCnx.mk 0 0 0)
        (LoopStat.mk 0 0)) rfl rfl rfl rfl⟩

/-! ### Phase-1 edge inspection
(DistributedGraph_CustomEdgeCut.h lines 385-439 and 450-492)

The host's assigned range [lo, hi) is indexed by the offset j = src - lo; the
vertex-ID map slice read for this host is `vmap` (so hi - lo = vmap.length),
and `dests j` is the destination list of source lo + j in the offline graph
(so outdegree = (dests j).length).  The do_all body touches, for each j, only
position j of exactly one host row, so the parallel loop is embedded as a
sequential fold over the offsets. -/

def find_hostID_offset (vmap : List Nat) (offset : Nat) : Nat :=
  vmap.getD offset 0

structure InspectState where
  numOutgoingEdges : List (List Nat)
  nodesPerHost : List Nat
  edgesPerHost : List Nat
  hasIncomingOf : List (List Nat)

def bumpAt (l : List Nat) (i v : Nat) : List Nat := l.set i (l.getD i 0 + v)

def setCell (m : List (List Nat)) (h j v : Nat) : List (List Nat) :=
  m.set h ((m.getD h []).set j v)

def addCell (m : List (List Nat)) (h j v : Nat) : List (List Nat) :=
  m.set h ((m.getD h []).set j ((m.getD h []).getD j 0 + v))

def appendIncoming (m : List (List Nat)) (h : Nat) (ds : List Nat) :
    List (List Nat) :=
  m.set h ((m.getD h []) ++ ds)

/-- Body of the EdgeInspection do_all (lines 417-437): h = find_hostID(src-lo);
numOutgoingEdges[h][src-lo] = 1; num_assigned_nodes_perhost[h] += 1;
num_assigned_edges_perhost[h] += num_edges;
numOutgoingEdges[h][src-lo] += num_edges; then the bitset writes for each
destination. -/
def inspectNode (dests : Nat → List Nat) (vmap : List Nat)
    (st : InspectState) (j : Nat) : InspectState :=
  let num_edges := (dests j).length
  let h := find_hostID_offset vmap j
  let out1 := setCell st.numOutgoingEdges h j 1
  let nodes1 := bumpAt st.nodesPerHost h 1
  let edges1 := bumpAt st.edgesPerHost h num_edges
  let out2 := addCell out1 h j num_edges
  let inc1 := appendIncoming st.hasIncomingOf h (dests j)
  { numOutgoingEdges := out2, nodesPerHost := nodes1,
    edgesPerHost := edges1, hasIncomingOf := inc1 }

/-- Initial state (lines 393-407): every host row assigned numNodesAssigned
zeros, empty accumulators and bitsets. -/
def inspectInit (numHosts n : Nat) : InspectState :=
  { numOutgoingEdges := List.replicate numHosts (List.replicate n 0)
    nodesPerHost := List.replicate numHosts 0
    edgesPerHost := List.replicate numHosts 0
    hasIncomingOf := List.replicate numHosts [] }

def edgeInspectionUpTo (dests : Nat → List Nat) (vmap : List Nat)
    (numHosts n : Nat) : InspectState :=
  (List.range n).foldl (inspectNode dests vmap) (inspectInit numHosts vmap.length)

def edgeInspection (dests : Nat → List Nat) (vmap : List Nat)
    (numHosts : Nat) : InspectState :=
  edgeInspectionUpTo dests vmap numHosts vmap.length

theorem getD_set_self {α : Type} (l : List α) (i : Nat) (a d : α)
    (h : i < l.length) : (l.set i a).getD i d = a := by
  induction l generalizing i with
  | nil => simp at h
  | cons x xs ih =>
      cases i with
      | zero => rfl
      | succ n =>
          simp only [List.set]
          exact ih n (by simpa using h)

theorem getD_set_ne {α : Type} (l : List α) (i j : Nat) (a d : α)
    (h : i ≠ j) : (l.set i a).getD j d = l.getD j d := by
  induction l generalizing i j with
  | nil => simp [List.set]
  | cons x xs ih =>
      cases i with
      | zero =>
          cases j with
          | zero => exact absurd rfl h
          | succ m => rfl
      | succ n =>
          cases j with
          | zero => rfl
          | succ m =>
              simp only [List.set]
              exact ih n m (fun hc => h (by rw [hc]))

theorem getD_replicate {α : Type} (n : Nat) (x : α) (i : Nat) (d : α) :
    (List.replicate n x).getD i d = if i < n then x else d := by
  induction n generalizing i with
  | zero => simp
  | succ m ih =>
      cases i with
      | zero => simp [List.replicate]
      | succ k =>
          simp only [List.replicate]
          show (List.replicate m x).getD k d = _
          rw [ih k]
          simp [Nat.succ_lt_succ_iff]

/-- Full characterization of the inspection fold after processing the first n
offsets: shapes of the per-host rows, the value of every counter cell, and the
per-host assigned-node accumulators. -/
theorem edgeInspection_invariant (dests : Nat → List Nat) (vmap : List Nat)
    (numHosts : Nat)
    (hhost : ∀ j, j < vmap.length → vmap.getD j 0 < numHosts) :
    ∀ n, n ≤ vmap.length →
    (edgeInspectionUpTo dests vmap numHosts n).numOutgoingEdges.length = numHosts ∧
    (∀ h, h < numHosts →
      ((edgeInspectionUpTo dests vmap numHosts n).numOutgoingEdges.getD h []).length
        = vmap.length) ∧
    (∀ h, h < numHosts → ∀ j, j < vmap.length →
      ((edgeInspectionUpTo dests vmap numHosts n).numOutgoingEdges.getD h []).getD j 0
        = if j < n ∧ vmap.getD j 0 = h then (dests j).length + 1 else 0) ∧
    (edgeInspectionUpTo dests vmap numHosts n).nodesPerHost.length = numHosts ∧
    (∀ h, h < numHosts →
      (edgeInspectionUpTo dests vmap numHosts n).nodesPerHost.getD h 0
        = ((List.range n).filter (fun j => decide (vmap.getD j 0 = h))).length) := by
  intro n
  induction n with
  | zero =>
      intro _
      refine ⟨by simp [edgeInspectionUpTo, inspectInit], ?_, ?_, ?_, ?_⟩
      · intro h hh
        simp [edgeInspectionUpTo, inspectInit, getD_replicate, hh]
      · intro h hh j hj
        simp [edgeInspectionUpTo, inspectInit, getD_replicate, hh, hj]
      · simp [edgeInspectionUpTo, inspectInit]
      · intro h hh
        simp [edgeInspectionUpTo, inspectInit, getD_replicate, hh]
  | succ n ih =>
      intro hn
      have hnle : n ≤ vmap.length := Nat.le_of_lt hn
      obtain ⟨ih1, ih2, ih3, ih4, ih5⟩ := ih hnle
      have hstep : edgeInspectionUpTo dests vmap numHosts (n + 1)
          = inspectNode dests vmap (edgeInspectionUpTo dests vmap numHosts n) n := by
        unfold edgeInspectionUpTo
        rw [List.range_succ, List.foldl_append]
        rfl
      set st := edgeInspectionUpTo dests vmap numHosts n with hst
      have hh0 : vmap.getD n 0 < numHosts := hhost n hn
      set h0 := vmap.getD n 0 with hh0def
      have hrowlen : ((st.numOutgoingEdges.getD h0 []).set n 1).length = vmap.length := by
        rw [List.length_set]; exact ih2 h0 hh0
      refine ⟨?_, ?_, ?_, ?_, ?_⟩
      · rw [hstep]
        simp only [inspectNode, addCell, setCell, find_hostID_offset, ← hh0def]
        simp only [List.length_set]
        exact ih1
      · intro h hh
        rw [hstep]
        simp only [inspectNode, addCell, setCell, find_hostID_offset, ← hh0def]
        by_cases hcase : h = h0
        · subst hcase
          rw [getD_set_self _ _ _ _ (by rw [List.length_set]; exact ih1 ▸ hh)]
          rw [List.length_set]
          rw [getD_set_self _ _ _ _ (by rw [ih1]; exact hh)]
          exact hrowlen
        · rw [getD_set_ne _ _ _ _ _ (fun hc => hcase hc.symm)]
          rw [getD_set_ne _ _ _ _ _ (fun hc => hcase hc.symm)]
          exact ih2 h hh
      · intro h hh j hj
        rw [hstep]
        simp only [inspectNode, addCell, setCell, find_hostID_offset, ← hh0def]
        by_cases hcase : h = h0
        · subst hcase
          have hlen1 : h0 < st.numOutgoingEdges.length := by rw [ih1]; exact hh
          rw [getD_set_self _ _ _ _ (by rw [List.length_set]; exact hlen1)]
          rw [getD_set_self _ _ _ _ hlen1]
          by_cases hj0 : j = n
          · subst hj0
            rw [getD_set_self _ _ _ _ (by rw [hrowlen]; exact hj)]
            rw [getD_set_self _ _ _ _ (by rw [ih2 h0 hh]; exact hj)]
            simp [hh0def]
            omega
          · rw [getD_set_ne _ _ _ _ _ (fun hc => hj0 hc.symm)]
            rw [getD_set_ne _ _ _ _ _ (fun hc => hj0 hc.symm)]
            rw [ih3 h0 hh j hj]
            have : (j < n ∧ vmap.getD j 0 = h0) ↔ (j < n + 1 ∧ vmap.getD j 0 = h0) := by
              constructor
              · rintro ⟨h1, h2⟩; exact ⟨Nat.lt_succ_of_lt h1, h2⟩
              · rintro ⟨h1, h2⟩
                refine ⟨?_, h2⟩
                rcases Nat.lt_succ_iff_lt_or_eq.mp h1 with h | h
                · exact h
                · exact absurd h hj0
            rw [if_congr this rfl rfl]
        · rw [getD_set_ne _ _ _ _ _ (fun hc => hcase hc.symm)]
          rw [getD_set_ne _ _ _ _ _ (fun hc => hcase hc.symm)]
          rw [ih3 h hh j hj]
          have : (j < n ∧ vmap.getD j 0 = h) ↔ (j < n + 1 ∧ vmap.getD j 0 = h) := by
            constructor
            · rintro ⟨h1, h2⟩; exact ⟨Nat.lt_succ_of_lt h1, h2⟩
            · rintro ⟨h1, h2⟩
              refine ⟨?_, h2⟩
              rcases Nat.lt_succ_iff_lt_or_eq.mp h1 with h' | h'
              · exact h'
              · subst h'; exact absurd h2.symm hcase
          rw [if_congr this rfl rfl]
      · rw [hstep]
        simp only [inspectNode, bumpAt, List.length_set]
        exact ih4
      · intro h hh
        rw [hstep]
        simp only [inspectNode, bumpAt, find_hostID_offset, ← hh0def]
        rw [List.range_succ, List.filter_append, List.length_append]
        by_cases hcase : h = h0
        · subst hcase
          rw [getD_set_self _ _ _ _ (by rw [ih4]; exact hh)]
          rw [ih5 h0 hh]
          simp [hh0def]
        · rw [getD_set_ne _ _ _ _ _ (fun hc => hcase hc.symm)]
          rw [ih5 h hh]
          have hz : (List.filter (fun j => decide (vmap.getD j 0 = h)) [n]).length = 0 := by
            have hg : decide (vmap.getD n 0 = h) = false := by
              apply decide_eq_false
              exact fun hc => hcase hc.symm
            simp only [List.filter_cons, List.filter_nil, hg]
            simp
          omega

/-- Property bundle for the inspection counters, claim C4. -/
def inspectProp (dests : Nat → List Nat) (vmap : List Nat)
    (numHosts h j : Nat) : Prop :=
  ((edgeInspection dests vmap numHosts).numOutgoingEdges.getD h []).getD j 0
      = (if vmap.getD j 0 = h then (dests j).length + 1 else 0) ∧
  (((edgeInspection dests vmap numHosts).numOutgoingEdges.getD h []).getD j 0 = 0
      ↔ vmap.getD j 0 ≠ h) ∧
  (((edgeInspection dests vmap numHosts).numOutgoingEdges.getD h []).getD j 0 = 1
      ↔ (vmap.getD j 0 = h ∧ (dests j).length = 0))

/-- Claim C4: after the phase-1 edge inspection over the assigned range, for
every destination host h and source offset j, numOutgoingEdges[h][j] equals
1 + outdegree when the vertex-ID map assigns the source to h and 0 otherwise;
in particular the value distinguishes owned-with-no-edges (1) from not-owned
(0). -/
theorem c4_inspection_counters (dests : Nat → List Nat) (vmap : List Nat)
    (numHosts h j : Nat)
    (hhost : ∀ j, j < vmap.length → vmap.getD j 0 < numHosts)
    (hh : h < numHosts) (hj : j < vmap.length) :
    inspectProp dests vmap numHosts h j := by
  obtain ⟨_, _, hcell, _, _⟩ :=
    edgeInspection_invariant dests vmap numHosts hhost vmap.length (le_refl _)
  have hval := hcell h hh j hj
  unfold inspectProp edgeInspection
  rw [hval]
  have hcond : (j < vmap.length ∧ vmap.getD j 0 = h) ↔ (vmap.getD j 0 = h) :=
    ⟨fun hp => hp.2, fun hp => ⟨hj, hp⟩⟩
  rw [if_congr hcond rfl rfl]
  refine ⟨rfl, ?_, ?_⟩
  · by_cases hc : vmap.getD j 0 = h
    · rw [if_pos hc]
      exact ⟨fun hz => absurd hz (Nat.succ_ne_zero _), fun hne => absurd hc hne⟩
    · rw [if_neg hc]
      exact ⟨fun _ => hc, fun _ => rfl⟩
  · by_cases hc : vmap.getD j 0 = h
    · rw [if_pos hc]
      constructor
      · intro h1
        exact ⟨hc, by omega⟩
      · rintro ⟨_, hd⟩
        omega
    · rw [if_neg hc]
      constructor
      · intro h01
        exact absurd h01 (by decide)
      · rintro ⟨hch, _⟩
        exact absurd hch hc

/-- Witness for C4: two sources on two hosts, vmap = [0,1], source 0 with one
outgoing edge owned by host 0, source 1 with none owned by host 1. -/
theorem c4_inspection_counters_witness :
    (∀ j, j < [0, 1].length → [0, 1].getD j 0 < 2) ∧ 0 < 2 ∧ 0 < [0, 1].length ∧
    inspectProp (fun j => if j = 0 then [1] else []) [0, 1] 2 0 0 :=
  ⟨by decide, by decide, by decide,
   c4_inspection_counters (fun j => if j = 0 then [1] else []) [0, 1] 2 0 0
     (by decide) (by decide) (by decide)⟩

/-! ### Phase-1 exchange of assignment counts
(DistributedGraph_CustomEdgeCut.h lines 458 and 476-492)

Line 458 sets `numOwned = num_assigned_nodes_perhost[id].reduce()`.  In the
receive loop (476-492) every peer x sends the value it computed for this host,
namely its own `num_assigned_nodes_perhost[self].reduce()`, and line 491 adds
it: `numOwned += num_nodes_from_host`.  The model takes every host's vertex-ID
map slice (`vmaps`) and destination function (`destss`) and replays the
protocol from this host's point of view. -/

def selfAssignedCount (destss : List (Nat → List Nat))
    (vmaps : List (List Nat)) (self numHosts : Nat) : Nat :=
  (edgeInspection (destss.getD self (fun _ => [])) (vmaps.getD self [])
      numHosts).nodesPerHost.getD self 0

def phase1NumOwned (destss : List (Nat → List Nat))
    (vmaps : List (List Nat)) (self numHosts : Nat) : Nat :=
  (List.range numHosts).foldl
    (fun acc x =>
      if x = self then acc
      else acc + (edgeInspection (destss.getD x (fun _ => []))
          (vmaps.getD x []) numHosts).nodesPerHost.getD self 0)
    (selfAssignedCount destss vmaps self numHosts)

theorem foldl_congr_mem {α β : Type} (f1 f2 : β → α → β) :
    ∀ (l : List α), (∀ b a, a ∈ l → f1 b a = f2 b a) →
      ∀ b, l.foldl f1 b = l.foldl f2 b := by
  intro l
  induction l with
  | nil => intro _ b; rfl
  | cons y rest ih =>
      intro h b
      rw [List.foldl_cons, List.foldl_cons, h b y (List.mem_cons_self y rest)]
      exact ih (fun b a ha => h b a (List.mem_cons_of_mem _ ha)) _

theorem foldl_skip_notmem (g : Nat → Nat) (self : Nat) :
    ∀ (l : List Nat) (acc : Nat), self ∉ l →
      l.foldl (fun a x => if x = self then a else a + g x) acc
        = acc + (l.map g).sum := by
  intro l
  induction l with
  | nil => intro acc _; simp
  | cons y rest ih =>
      intro acc hnm
      have hy : y ≠ self := fun hc => hnm (hc ▸ List.mem_cons_self y rest)
      have hrest : self ∉ rest := fun hc => hnm (List.mem_cons_of_mem _ hc)
      rw [List.foldl_cons]
      show rest.foldl _ (if y = self then acc else acc + g y) = _
      rw [if_neg hy, ih (acc + g y) hrest, List.map_cons, List.sum_cons]
      omega

theorem foldl_skip_range (g : Nat → Nat) (self n : Nat) (hself : self < n) :
    (List.range n).foldl (fun a x => if x = self then a else a + g x) (g self)
      = ((List.range n).map g).sum := by
  induction n with
  | zero => simp at hself
  | succ m ih =>
      rw [List.range_succ, List.foldl_append, List.map_append, List.sum_append]
      rcases Nat.lt_succ_iff_lt_or_eq.mp hself with hlt | heq
      · rw [ih hlt]
        have hne : m ≠ self := fun hc => absurd hlt (hc ▸ Nat.lt_irrefl m)
        show (if m = self then _ else _ + g m) = _
        rw [if_neg hne]
        simp
      · subst heq
        have hnm : self ∉ List.range self := by
          intro hc
          exact absurd (List.mem_range.mp hc) (Nat.lt_irrefl self)
        rw [foldl_skip_notmem g self (List.range self) (g self) hnm]
        show (if self = self then _ else _) = _
        rw [if_pos rfl]
        simp
        omega

/-- Counterexample to claim C8 as stated: with two hosts, self = 0,
vertex-ID maps [0] on host 0 and [0] on host 1 (host 1's node also assigned to
host 0), after the phase-1 exchange numOwned is 2 while the count reduced from
num_assigned_nodes_perhost[self] on this host is 1. -/
theorem c8_counterexample :
    phase1NumOwned [fun _ => [], fun _ => []] [[0], [0]] 0 2
      ≠ selfAssignedCount [fun _ => [], fun _ => []] [[0], [0]] 0 2 := by
  decide

/-- Amended claim C8 as a property bundle: after the phase-1 exchange,
numOwned equals the local reduce plus the node counts received from every
peer, i.e. the total number of sources that the vertex-ID map slices of all
hosts assign to this host. -/
def numOwnedTotalProp (destss : List (Nat → List Nat))
    (vmaps : List (List Nat)) (self numHosts : Nat) : Prop :=
  phase1NumOwned destss vmaps self numHosts
    = ((List.range numHosts).map (fun x =>
        ((List.range (vmaps.getD x []).length).filter
          (fun j => decide ((vmaps.getD x []).getD j 0 = self))).length)).sum

/-- Claim C8 (amended): after the phase-1 exchange, numOwned equals the count
reduced from num_assigned_nodes_perhost[self] plus the counts received from
all peers — the total number of nodes the vertex-ID map assigns to this host
across every host's range. -/
theorem c8_numOwned_after_exchange (destss : List (Nat → List Nat))
    (vmaps : List (List Nat)) (self numHosts : Nat)
    (hself : self < numHosts)
    (hhost : ∀ x, x < numHosts → ∀ j, j < (vmaps.getD x []).length →
      (vmaps.getD x []).getD j 0 < numHosts) :
    numOwnedTotalProp destss vmaps self numHosts := by
  unfold numOwnedTotalProp phase1NumOwned selfAssignedCount
  set g := fun x => ((List.range (vmaps.getD x []).length).filter
      (fun j => decide ((vmaps.getD x []).getD j 0 = self))).length with hg
  have hcount : ∀ x, x < numHosts →
      (edgeInspection (destss.getD x (fun _ => [])) (vmaps.getD x [])
          numHosts).nodesPerHost.getD self 0 = g x := by
    intro x hx
    obtain ⟨_, _, _, _, hnodes⟩ :=
      edgeInspection_invariant (destss.getD x (fun _ => [])) (vmaps.getD x [])
        numHosts (hhost x hx) (vmaps.getD x []).length (le_refl _)
    exact hnodes self hself
  have hfold : (List.range numHosts).foldl
      (fun acc x =>
        if x = self then acc
        else acc + (edgeInspection (destss.getD x (fun _ => []))
            (vmaps.getD x []) numHosts).nodesPerHost.getD self 0)
      ((edgeInspection (destss.getD self (fun _ => [])) (vmaps.getD self [])
          numHosts).nodesPerHost.getD self 0)
      = (List.range numHosts).foldl
          (fun acc x => if x = self then acc else acc + g x) (g self) := by
    rw [hcount self hself]
    apply foldl_congr_mem
    intro acc x hx
    by_cases hxs : x = self
    · rw [if_pos hxs, if_pos hxs]
    · rw [if_neg hxs, if_neg hxs, hcount x (List.mem_range.mp hx)]
  rw [hfold, foldl_skip_range g self numHosts hself]

/-- Witness for C8 (amended) at the counterexample input. -/
theorem c8_numOwned_after_exchange_witness :
    0 < 2 ∧ numOwnedTotalProp [fun _ => [], fun _ => []] [[0], [0]] 0 2 :=
  ⟨by decide,
   c8_numOwned_after_exchange [fun _ => [], fun _ => []] [[0], [0]] 0 2
     (by decide) (by decide)⟩

/-! ### Local id assignment
(DistributedGraph_CustomEdgeCut.h lines 502-550, with G2L/L2G/isOwned from
lines 100-120)

After the phase-1 exchange, `numOutgoingEdges[i]` holds, for every host i, the
counter vector of host i's assigned range (the locally computed one for
i = self, the received one otherwise), so walking i then j with a running
`src` counter visits every GID in global order.  The owned pass (507-522)
appends every src whose counter is positive; the ghost pass (535-547) appends
every GID with a local incoming edge that is not owned.  `css` is the list of
per-host counter vectors, `hI` the OR-merged incoming-edge bitset, and
`numOwned` the count established by the exchange (the source asserts
numNodes == numOwned between the two passes, line 528).

The C++ `std::unordered_map` is embedded as an association list where
assignment prepends a binding and lookup returns the most recent one. -/

structure PartState where
  numNodes : Nat
  numEdges : Nat
  localToGlobalVector : List Nat
  globalToLocalMap : List (Nat × Nat)
  prefixSumOfEdges : List Nat

def initPartState : PartState :=
  { numNodes := 0, numEdges := 0, localToGlobalVector := [],
    globalToLocalMap := [], prefixSumOfEdges := [] }

def mapLookup : List (Nat × Nat) → Nat → Option Nat
  | [], _ => none
  | (k, v) :: rest, g => if k = g then some v else mapLookup rest g

/-- Common body of both appends:
localToGlobalVector.push_back(gid); globalToLocalMap[gid] = numNodes++;
prefixSumOfEdges.push_back(numEdges) — with `e` the value numEdges holds when
the push happens. -/
def pushNode (st : PartState) (g e : Nat) : PartState :=
  { numNodes := st.numNodes + 1
    numEdges := e
    localToGlobalVector := st.localToGlobalVector ++ [g]
    globalToLocalMap := (g, st.numNodes) :: st.globalToLocalMap
    prefixSumOfEdges := st.prefixSumOfEdges ++ [e] }

/-- One iteration of the owned pass (lines 509-521): if the counter is
positive, numEdges += counter - 1 and the node is appended. -/
def ownedStep (st : PartState) (src c : Nat) : PartState :=
  if c > 0 then pushNode st src (st.numEdges + (c - 1)) else st

def ownedPass : PartState → Nat → List Nat → PartState
  | st, _, [] => st
  | st, src, c :: rest => ownedPass (ownedStep st src c) (src + 1) rest

/-- The outer loop over hosts (line 508), threading the running src counter
through the per-host counter vectors. -/
def ownedPassHosts : PartState → Nat → List (List Nat) → PartState
  | st, _, [] => st
  | st, src, cs :: rest => ownedPassHosts (ownedPass st src cs) (src + cs.length) rest

/-- isOwned (lines 100-106): isLocal(gid) && globalToLocalMap.at(gid) < numOwned. -/
def isOwnedSt (st : PartState) (numOwned gid : Nat) : Bool :=
  match mapLookup st.globalToLocalMap gid with
  | some lid => lid < numOwned
  | none => false

/-- One iteration of the ghost pass (lines 542-546). -/
def ghostStep (numOwned : Nat) (hI : Nat → Bool) (st : PartState) (i : Nat) :
    PartState :=
  if hI i && !(isOwnedSt st numOwned i) then pushNode st i st.numEdges else st

def ghostPass (numOwned : Nat) (hI : Nat → Bool) (st : PartState)
    (numGlobal : Nat) : PartState :=
  (List.range numGlobal).foldl (ghostStep numOwned hI) st

/-- Both passes of the local id assignment (lines 502-547). -/
def assignLocalIds (css : List (List Nat)) (hI : Nat → Bool)
    (numOwned numGlobal : Nat) : PartState :=
  ghostPass numOwned hI (ownedPassHosts initPartState 0 css) numGlobal

/-- G2L (lines 113-116): globalToLocalMap.at(gid), as an Option. -/
def G2Lmap (st : PartState) (gid : Nat) : Option Nat :=
  mapLookup st.globalToLocalMap gid

/-- L2G (lines 118-120): localToGlobalVector[lid]. -/
def L2Gvec (st : PartState) (lid : Nat) : Nat :=
  st.localToGlobalVector.getD lid 0

/-- Spec-side description of the owned pass: the GIDs (offsets from src) whose
counter is positive, in increasing order. -/
def posGids : Nat → List Nat → List Nat
  | _, [] => []
  | src, c :: rest =>
      if c > 0 then src :: posGids (src + 1) rest else posGids (src + 1) rest

/-- Spec-side description of the end-offset entries the owned pass pushes:
the running sum extended by counter - 1 at every positive counter. -/
def ownedEndList : Nat → List Nat → List Nat
  | _, [] => []
  | e, c :: rest =>
      if c > 0 then (e + (c - 1)) :: ownedEndList (e + (c - 1)) rest
      else ownedEndList e rest

/-- The value numEdges holds after the owned pass. -/
def ownedNumEdges : Nat → List Nat → Nat
  | e, [] => e
  | e, c :: rest =>
      if c > 0 then ownedNumEdges (e + (c - 1)) rest else ownedNumEdges e rest

/-- Spec-side description of the ghost pass: GIDs below numGlobal with a local
incoming edge that are not among the owned GIDs, in increasing order. -/
def ghostList (numGlobal : Nat) (hI : Nat → Bool) (owned : List Nat) :
    List Nat :=
  (List.range numGlobal).filter (fun g => hI g && !(decide (g ∈ owned)))

theorem get?_append_left {α : Type} :
    ∀ (l1 l2 : List α) (i : Nat), i < l1.length →
      (l1 ++ l2).get? i = l1.get? i := by
  intro l1
  induction l1 with
  | nil => intro l2 i h; simp at h
  | cons x xs ih =>
      intro l2 i h
      cases i with
      | zero => rfl
      | succ m =>
          show (xs ++ l2).get? m = xs.get? m
          exact ih l2 m (by simpa using h)

theorem getD_eq_get {α : Type} (l : List α) (i : Nat) (d : α)
    (h : i < l.length) : l.getD i d = l.get ⟨i, h⟩ := by
  rw [show l.getD i d = (l.get? i).getD d from rfl, List.get?_eq_get h]
  rfl

theorem mapLookup_cons_ne (k v g : Nat) (m : List (Nat × Nat)) (h : k ≠ g) :
    mapLookup ((k, v) :: m) g = mapLookup m g := by
  simp only [mapLookup, if_neg h]

theorem mapLookup_cons_eq (k v : Nat) (m : List (Nat × Nat)) :
    mapLookup ((k, v) :: m) k = some v := by
  simp [mapLookup]

theorem posGids_cons (src c : Nat) (rest : List Nat) :
    posGids src (c :: rest)
      = if c > 0 then src :: posGids (src + 1) rest else posGids (src + 1) rest :=
  rfl

theorem ownedEndList_cons (e c : Nat) (rest : List Nat) :
    ownedEndList e (c :: rest)
      = if c > 0 then (e + (c - 1)) :: ownedEndList (e + (c - 1)) rest
        else ownedEndList e rest :=
  rfl

theorem ownedNumEdges_cons (e c : Nat) (rest : List Nat) :
    ownedNumEdges e (c :: rest)
      = if c > 0 then ownedNumEdges (e + (c - 1)) rest
        else ownedNumEdges e rest :=
  rfl

/-- State invariant tying the map to the vector: the node counter tracks the
vector length, the vector has no duplicates, looking up any vector entry gives
its position, and only vector entries are bound in the map. -/
structure MapInv (st : PartState) : Prop where
  nn : st.numNodes = st.localToGlobalVector.length
  nd : st.localToGlobalVector.Nodup
  lk : ∀ l (h : l < st.localToGlobalVector.length),
        mapLookup st.globalToLocalMap (st.localToGlobalVector.get ⟨l, h⟩) = some l
  ks : ∀ g, g ∉ st.localToGlobalVector → mapLookup st.globalToLocalMap g = none

theorem initPartState_mapInv : MapInv initPartState := by
  refine ⟨rfl, List.nodup_nil, ?_, ?_⟩
  · intro l h
    simp [initPartState] at h
  · intro g _
    rfl

theorem pushNode_mapInv (st : PartState) (g e : Nat) (hInv : MapInv st)
    (hg : g ∉ st.localToGlobalVector) : MapInv (pushNode st g e) := by
  refine ⟨?_, ?_, ?_, ?_⟩
  · simp [pushNode, hInv.nn]
  · refine List.nodup_append.mpr ⟨hInv.nd, List.nodup_singleton g, ?_⟩
    intro a ha hb
    rw [List.mem_singleton] at hb
    exact hg (hb ▸ ha)
  · intro l h
    have hlen : l < st.localToGlobalVector.length + 1 := by
      simpa [pushNode] using h
    rcases Nat.lt_succ_iff_lt_or_eq.mp hlen with hlt | heq
    · have hget : (pushNode st g e).localToGlobalVector.get ⟨l, h⟩
          = st.localToGlobalVector.get ⟨l, hlt⟩ := by
        simp only [pushNode]
        exact List.get_append l hlt
      rw [hget]
      have hne : g ≠ st.localToGlobalVector.get ⟨l, hlt⟩ := by
        intro hc
        exact hg (hc ▸ List.get_mem _ l hlt)
      simp only [pushNode]
      rw [mapLookup_cons_ne _ _ _ _ hne]
      exact hInv.lk l hlt
    · subst heq
      have hget : (pushNode st g e).localToGlobalVector.get ⟨st.localToGlobalVector.length, h⟩ = g := by
        simp only [pushNode]
        simp [List.get_eq_getElem, List.getElem_concat_length]
      rw [hget]
      simp only [pushNode]
      rw [mapLookup_cons_eq]
      rw [hInv.nn]
  · intro g' hg'
    simp only [pushNode, List.mem_append, List.mem_singleton] at hg'
    push_neg at hg'
    simp only [pushNode]
    rw [mapLookup_cons_ne _ _ _ _ (fun hc => hg'.2 hc.symm)]
    exact hInv.ks g' hg'.1

theorem ownedPass_mapInv :
    ∀ (cs : List Nat) (st : PartState) (src : Nat), MapInv st →
      (∀ v ∈ st.localToGlobalVector, v < src) →
      MapInv (ownedPass st src cs) ∧
      (∀ v ∈ (ownedPass st src cs).localToGlobalVector, v < src + cs.length) := by
  intro cs
  induction cs with
  | nil =>
      intro st src hInv hbd
      exact ⟨hInv, by simpa using hbd⟩
  | cons c rest ih =>
      intro st src hInv hbd
      have hstep : MapInv (ownedStep st src c) ∧
          (∀ v ∈ (ownedStep st src c).localToGlobalVector, v < src + 1) := by
        unfold ownedStep
        by_cases hc : c > 0
        · rw [if_pos hc]
          have hgnm : src ∉ st.localToGlobalVector := by
            intro hmem
            exact absurd (hbd src hmem) (Nat.lt_irrefl src)
          refine ⟨pushNode_mapInv st src _ hInv hgnm, ?_⟩
          intro v hv
          simp only [pushNode, List.mem_append, List.mem_singleton] at hv
          rcases hv with hv | hv
          · exact Nat.lt_succ_of_lt (hbd v hv)
          · subst hv; exact Nat.lt_succ_self v
        · rw [if_neg hc]
          exact ⟨hInv, fun v hv => Nat.lt_succ_of_lt (hbd v hv)⟩
      have := ih (ownedStep st src c) (src + 1) hstep.1 hstep.2
      refine ⟨this.1, ?_⟩
      intro v hv
      have := this.2 v hv
      simp only [List.length_cons]
      omega

theorem ownedPass_append_split :
    ∀ (cs1 cs2 : List Nat) (st : PartState) (src : Nat),
      ownedPass st src (cs1 ++ cs2)
        = ownedPass (ownedPass st src cs1) (src + cs1.length) cs2 := by
  intro cs1
  induction cs1 with
  | nil => intro cs2 st src; simp [ownedPass]
  | cons c rest ih =>
      intro cs2 st src
      show ownedPass (ownedStep st src c) (src + 1) (rest ++ cs2) = _
      rw [ih cs2 (ownedStep st src c) (src + 1)]
      have harith : src + 1 + rest.length = src + (c :: rest).length := by
        simp [List.length_cons]; omega
      rw [harith]
      rfl

theorem ownedPassHosts_eq_join :
    ∀ (css : List (List Nat)) (st : PartState) (src : Nat),
      ownedPassHosts st src css = ownedPass st src css.flatten := by
  intro css
  induction css with
  | nil => intro st src; rfl
  | cons cs rest ih =>
      intro st src
      show ownedPassHosts (ownedPass st src cs) (src + cs.length) rest = _
      rw [ih (ownedPass st src cs) (src + cs.length)]
      rw [show (cs :: rest).flatten = cs ++ rest.flatten from rfl]
      rw [ownedPass_append_split]

theorem ownedPass_vec :
    ∀ (cs : List Nat) (st : PartState) (src : Nat),
      (ownedPass st src cs).localToGlobalVector
        = st.localToGlobalVector ++ posGids src cs := by
  intro cs
  induction cs with
  | nil => intro st src; simp [ownedPass, posGids]
  | cons c rest ih =>
      intro st src
      show (ownedPass (ownedStep st src c) (src + 1) rest).localToGlobalVector = _
      rw [ih (ownedStep st src c) (src + 1)]
      rw [posGids_cons]
      unfold ownedStep
      by_cases hc : c > 0
      · rw [if_pos hc, if_pos hc]
        simp [pushNode, List.append_assoc]
      · rw [if_neg hc, if_neg hc]

theorem ownedPass_numNodes :
    ∀ (cs : List Nat) (st : PartState) (src : Nat),
      (ownedPass st src cs).numNodes = st.numNodes + (posGids src cs).length := by
  intro cs
  induction cs with
  | nil => intro st src; simp [ownedPass, posGids]
  | cons c rest ih =>
      intro st src
      show (ownedPass (ownedStep st src c) (src + 1) rest).numNodes = _
      rw [ih (ownedStep st src c) (src + 1)]
      rw [posGids_cons]
      unfold ownedStep
      by_cases hc : c > 0
      · rw [if_pos hc, if_pos hc]
        simp [pushNode]
        omega
      · rw [if_neg hc, if_neg hc]

theorem ownedPass_numEdges :
    ∀ (cs : List Nat) (st : PartState) (src : Nat),
      (ownedPass st src cs).numEdges = ownedNumEdges st.numEdges cs := by
  intro cs
  induction cs with
  | nil => intro st src; rfl
  | cons c rest ih =>
      intro st src
      show (ownedPass (ownedStep st src c) (src + 1) rest).numEdges = _
      rw [ih (ownedStep st src c) (src + 1)]
      rw [ownedNumEdges_cons]
      unfold ownedStep
      by_cases hc : c > 0
      · rw [if_pos hc, if_pos hc]
        rfl
      · rw [if_neg hc, if_neg hc]

theorem ownedPass_ends :
    ∀ (cs : List Nat) (st : PartState) (src : Nat),
      (ownedPass st src cs).prefixSumOfEdges
        = st.prefixSumOfEdges ++ ownedEndList st.numEdges cs := by
  intro cs
  induction cs with
  | nil => intro st src; simp [ownedPass, ownedEndList]
  | cons c rest ih =>
      intro st src
      show (ownedPass (ownedStep st src c) (src + 1) rest).prefixSumOfEdges = _
      rw [ih (ownedStep st src c) (src + 1)]
      rw [ownedEndList_cons]
      unfold ownedStep
      by_cases hc : c > 0
      · rw [if_pos hc, if_pos hc]
        simp [pushNode, List.append_assoc]
      · rw [if_neg hc, if_neg hc]

theorem posGids_ge :
    ∀ (cs : List Nat) (src g : Nat), g ∈ posGids src cs → src ≤ g := by
  intro cs
  induction cs with
  | nil => intro src g hg; simp [posGids] at hg
  | cons c rest ih =>
      intro src g hg
      unfold posGids at hg
      by_cases hc : c > 0
      · rw [if_pos hc] at hg
        rcases List.mem_cons.mp hg with h | h
        · exact h ▸ le_refl _
        · exact Nat.le_of_succ_le (ih (src + 1) g h)
      · rw [if_neg hc] at hg
        exact Nat.le_of_succ_le (ih (src + 1) g hg)

theorem posGids_sorted :
    ∀ (cs : List Nat) (src : Nat), List.Sorted (· < ·) (posGids src cs) := by
  intro cs
  induction cs with
  | nil => intro src; simp [posGids]
  | cons c rest ih =>
      intro src
      unfold posGids
      by_cases hc : c > 0
      · rw [if_pos hc]
        refine List.sorted_cons.mpr ⟨?_, ih (src + 1)⟩
        intro b hb
        exact Nat.lt_of_succ_le (posGids_ge rest (src + 1) b hb)
      · rw [if_neg hc]
        exact ih (src + 1)

theorem ghostPass_zero (numOwned : Nat) (hI : Nat → Bool) (st : PartState) :
    ghostPass numOwned hI st 0 = st :=
  rfl

theorem ghostPass_succ (numOwned : Nat) (hI : Nat → Bool) (st : PartState)
    (n : Nat) :
    ghostPass numOwned hI st (n + 1)
      = ghostStep numOwned hI (ghostPass numOwned hI st n) n := by
  unfold ghostPass
  rw [List.range_succ, List.foldl_append]
  rfl

theorem ghostList_zero (hI : Nat → Bool) (owned : List Nat) :
    ghostList 0 hI owned = [] :=
  rfl

theorem ghostList_succ (n : Nat) (hI : Nat → Bool) (owned : List Nat) :
    ghostList (n + 1) hI owned
      = ghostList n hI owned
        ++ (if (hI n && !(decide (n ∈ owned))) = true then [n] else []) := by
  unfold ghostList
  rw [List.range_succ, List.filter_append]
  congr 1
  by_cases h : (hI n && !(decide (n ∈ owned))) = true
  · rw [if_pos h]
    simp [List.filter_cons, h]
  · rw [if_neg h]
    simp [List.filter_cons, h]

/-- Full characterization of the ghost pass started from a state whose map
invariant holds and whose vector holds exactly the numOwned masters (the
source's assert numNodes == numOwned at line 528): it appends exactly the
not-owned GIDs with a local incoming edge, in increasing order, leaving
numEdges unchanged and extending the end-offset array by copies of
numEdges. -/
theorem ghostPass_spec (numOwned : Nat) (hI : Nat → Bool) (st1 : PartState)
    (hInv : MapInv st1)
    (hNum : st1.localToGlobalVector.length = numOwned) :
    ∀ n : Nat,
      MapInv (ghostPass numOwned hI st1 n) ∧
      (ghostPass numOwned hI st1 n).localToGlobalVector
          = st1.localToGlobalVector ++ ghostList n hI st1.localToGlobalVector ∧
      (ghostPass numOwned hI st1 n).numEdges = st1.numEdges ∧
      (ghostPass numOwned hI st1 n).prefixSumOfEdges
          = st1.prefixSumOfEdges
            ++ List.replicate (ghostList n hI st1.localToGlobalVector).length
                st1.numEdges ∧
      (ghostPass numOwned hI st1 n).numNodes
          = st1.numNodes + (ghostList n hI st1.localToGlobalVector).length := by
  intro n
  induction n with
  | zero =>
      rw [ghostPass_zero, ghostList_zero]
      exact ⟨hInv, by simp, rfl, by simp, by simp⟩
  | succ n ih =>
      obtain ⟨ih1, ih2, ih3, ih4, ih5⟩ := ih
      rw [ghostPass_succ, ghostList_succ]
      set stn := ghostPass numOwned hI st1 n with hstn
      have hio : isOwnedSt stn numOwned n
          = decide (n ∈ st1.localToGlobalVector) := by
        by_cases hmem : n ∈ st1.localToGlobalVector
        · obtain ⟨⟨l, hl⟩, hget⟩ := List.mem_iff_get.mp hmem
          have hl2 : l < stn.localToGlobalVector.length := by
            rw [ih2, List.length_append]
            omega
          have hq1 : stn.localToGlobalVector.get? l = some n := by
            rw [ih2, get?_append_left _ _ l hl, List.get?_eq_get hl, hget]
          have hgetn : stn.localToGlobalVector.get ⟨l, hl2⟩ = n := by
            have hq2 := List.get?_eq_get hl2
            rw [hq2] at hq1
            exact Option.some.inj hq1
          have hlk := ih1.lk l hl2
          rw [hgetn] at hlk
          unfold isOwnedSt
          rw [hlk]
          have hlo : l < numOwned := hNum ▸ hl
          simp [hlo, hmem]
        · have hnm : n ∉ stn.localToGlobalVector := by
            rw [ih2]
            intro hc
            rcases List.mem_append.mp hc with h | h
            · exact hmem h
            · have hmf := List.mem_filter.mp h
              exact absurd (List.mem_range.mp hmf.1) (Nat.lt_irrefl n)
          unfold isOwnedSt
          rw [ih1.ks n hnm]
          simp [hmem]
      have hcond : (hI n && !(isOwnedSt stn numOwned n))
          = (hI n && !(decide (n ∈ st1.localToGlobalVector))) := by
        rw [hio]
      by_cases hc : (hI n && !(decide (n ∈ st1.localToGlobalVector))) = true
      · have hnotmem : n ∉ st1.localToGlobalVector := by
          intro hmem
          have hdt : decide (n ∈ st1.localToGlobalVector) = true :=
            decide_eq_true hmem
          rw [hdt] at hc
          simp at hc
        have hnm : n ∉ stn.localToGlobalVector := by
          rw [ih2]
          intro hcc
          rcases List.mem_append.mp hcc with h | h
          · exact hnotmem h
          · have hmf := List.mem_filter.mp h
            exact absurd (List.mem_range.mp hmf.1) (Nat.lt_irrefl n)
        unfold ghostStep
        rw [hcond, if_pos hc, if_pos hc]
        refine ⟨pushNode_mapInv stn n stn.numEdges ih1 hnm, ?_, ?_, ?_, ?_⟩
        · show stn.localToGlobalVector ++ [n] = _
          rw [ih2, List.append_assoc]
        · show stn.numEdges = st1.numEdges
          exact ih3
        · show stn.prefixSumOfEdges ++ [stn.numEdges] = _
          rw [ih4, ih3, List.append_assoc, List.length_append,
              List.length_singleton]
          rw [← List.replicate_succ' (ghostList n hI st1.localToGlobalVector).length st1.numEdges]
        · show stn.numNodes + 1 = _
          rw [ih5, List.length_append, List.length_singleton]
          omega
      · unfold ghostStep
        rw [hcond, if_neg hc, if_neg hc]
        rw [List.append_nil]
        exact ⟨ih1, ih2, ih3, ih4, ih5⟩

/-- Shape invariant of the end-offset array: one entry per node,
non-decreasing, every entry at most numEdges, last entry equal to numEdges. -/
structure EndsInv (st : PartState) : Prop where
  len : st.prefixSumOfEdges.length = st.numNodes
  mono : List.Sorted (· ≤ ·) st.prefixSumOfEdges
  ub : ∀ x ∈ st.prefixSumOfEdges, x ≤ st.numEdges
  last : st.prefixSumOfEdges = [] ∨
      st.prefixSumOfEdges.getLast? = some st.numEdges

theorem initPartState_endsInv : EndsInv initPartState := by
  refine ⟨rfl, List.sorted_nil, ?_, Or.inl rfl⟩
  intro x hx
  simp [initPartState] at hx

theorem pushNode_endsInv (st : PartState) (g e : Nat) (hInv : EndsInv st)
    (he : st.numEdges ≤ e) : EndsInv (pushNode st g e) := by
  refine ⟨?_, ?_, ?_, ?_⟩
  · simp [pushNode, hInv.len]
  · show List.Sorted (· ≤ ·) (st.prefixSumOfEdges ++ [e])
    refine List.pairwise_append.mpr ⟨hInv.mono, List.pairwise_singleton _ _, ?_⟩
    intro x hx y hy
    rw [List.mem_singleton] at hy
    subst hy
    exact le_trans (hInv.ub x hx) he
  · intro x hx
    show x ≤ e
    rcases List.mem_append.mp hx with h | h
    · exact le_trans (hInv.ub x h) he
    · rw [List.mem_singleton] at h
      exact h ▸ le_refl e
  · right
    show (st.prefixSumOfEdges ++ [e]).getLast? = some e
    exact List.getLast?_concat _

theorem ownedStep_endsInv (st : PartState) (src c : Nat) (hInv : EndsInv st) :
    EndsInv (ownedStep st src c) := by
  unfold ownedStep
  by_cases hc : c > 0
  · rw [if_pos hc]
    exact pushNode_endsInv st src _ hInv (Nat.le_add_right _ _)
  · rw [if_neg hc]
    exact hInv

theorem ghostStep_endsInv (numOwned : Nat) (hI : Nat → Bool) (st : PartState)
    (i : Nat) (hInv : EndsInv st) : EndsInv (ghostStep numOwned hI st i) := by
  unfold ghostStep
  by_cases hc : (hI i && !(isOwnedSt st numOwned i)) = true
  · rw [if_pos hc]
    exact pushNode_endsInv st i st.numEdges hInv (le_refl _)
  · rw [if_neg hc]
    exact hInv

theorem ownedPass_endsInv :
    ∀ (cs : List Nat) (st : PartState) (src : Nat), EndsInv st →
      EndsInv (ownedPass st src cs) := by
  intro cs
  induction cs with
  | nil => intro st src hInv; exact hInv
  | cons c rest ih =>
      intro st src hInv
      exact ih (ownedStep st src c) (src + 1) (ownedStep_endsInv st src c hInv)

theorem ownedPassHosts_endsInv :
    ∀ (css : List (List Nat)) (st : PartState) (src : Nat), EndsInv st →
      EndsInv (ownedPassHosts st src css) := by
  intro css
  induction css with
  | nil => intro st src hInv; exact hInv
  | cons cs rest ih =>
      intro st src hInv
      exact ih (ownedPass st src cs) (src + cs.length)
        (ownedPass_endsInv cs st src hInv)

theorem ghostPass_endsInv (numOwned : Nat) (hI : Nat → Bool) :
    ∀ (n : Nat) (st : PartState), EndsInv st →
      EndsInv (ghostPass numOwned hI st n) := by
  intro n
  induction n with
  | zero => intro st hInv; exact hInv
  | succ m ih =>
      intro st hInv
      rw [ghostPass_succ]
      exact ghostStep_endsInv numOwned hI _ m (ih st hInv)

/-- The end-offset array shape after local id assignment, claim C2 as the code
realises it: length numNodes (one end offset per node, consumed by
fixEndEdge(n, prefixSumOfEdges[n]) for n < numNodes), non-decreasing, final
entry equal to numEdges. -/
def endsShapeProp (css : List (List Nat)) (hI : Nat → Bool)
    (numOwned numGlobal : Nat) : Prop :=
  (assignLocalIds css hI numOwned numGlobal).prefixSumOfEdges.length
      = (assignLocalIds css hI numOwned numGlobal).numNodes ∧
  List.Sorted (· ≤ ·)
      (assignLocalIds css hI numOwned numGlobal).prefixSumOfEdges ∧
  (0 < (assignLocalIds css hI numOwned numGlobal).numNodes →
      (assignLocalIds css hI numOwned numGlobal).prefixSumOfEdges.getLast?
        = some (assignLocalIds css hI numOwned numGlobal).numEdges)

/-- Claim C2 (amended): after local id assignment the end-offset array built
by the partitioner has length numNodes (not numNodes + 1), is non-decreasing,
and when numNodes > 0 its final entry (index numNodes - 1) equals numEdges. -/
theorem c2_ends_shape (css : List (List Nat)) (hI : Nat → Bool)
    (numOwned numGlobal : Nat) : endsShapeProp css hI numOwned numGlobal := by
  have hInv : EndsInv (assignLocalIds css hI numOwned numGlobal) := by
    unfold assignLocalIds
    exact ghostPass_endsInv numOwned hI numGlobal _
      (ownedPassHosts_endsInv css initPartState 0 initPartState_endsInv)
  refine ⟨hInv.len, hInv.mono, ?_⟩
  intro hpos
  rcases hInv.last with hnil | hlast
  · exfalso
    have h0 : (assignLocalIds css hI numOwned numGlobal).numNodes = 0 := by
      rw [← hInv.len, hnil]
      rfl
    omega
  · exact hlast

/-- Witness for C2 (amended) at a concrete two-host instance. -/
theorem c2_ends_shape_witness :
    endsShapeProp [[2, 0], [1]] (fun g => g == 1) 2 3 :=
  c2_ends_shape [[2, 0], [1]] (fun g => g == 1) 2 3

/-- Counterexample to claim C2 as stated: one counter vector [1] (a single
owned node with no outgoing edges), no incoming edges anywhere.  The end-offset
array is [0]: its length is numNodes = 1, not numNodes + 1 = 2. -/
theorem c2_counterexample :
    (assignLocalIds [[1]] (fun _ => false) 1 1).prefixSumOfEdges.length
      ≠ (assignLocalIds [[1]] (fun _ => false) 1 1).numNodes + 1 := by
  decide

/-- Claim C1: after local id assignment, G2L(L2G(l)) = l for every local id
l < numNodes, under the source's own assertion (line 528) that the owned pass
produced exactly numOwned nodes. -/
theorem c1_g2l_l2g_inverse (css : List (List Nat)) (hI : Nat → Bool)
    (numOwned numGlobal : Nat)
    (hA : (ownedPassHosts initPartState 0 css).numNodes = numOwned) :
    ∀ l, l < (assignLocalIds css hI numOwned numGlobal).numNodes →
      G2Lmap (assignLocalIds css hI numOwned numGlobal)
        (L2Gvec (assignLocalIds css hI numOwned numGlobal) l) = some l := by
  have hInv1 : MapInv (ownedPassHosts initPartState 0 css) := by
    rw [ownedPassHosts_eq_join]
    exact (ownedPass_mapInv css.flatten initPartState 0 initPartState_mapInv
      (by intro v hv; simp [initPartState] at hv)).1
  have hNum : (ownedPassHosts initPartState 0 css).localToGlobalVector.length
      = numOwned := by
    rw [← hInv1.nn]
    exact hA
  obtain ⟨hfInv, _, _, _, _⟩ :=
    ghostPass_spec numOwned hI (ownedPassHosts initPartState 0 css)
      hInv1 hNum numGlobal
  intro l hl
  have hl2 : l < (assignLocalIds css hI numOwned numGlobal).localToGlobalVector.length := by
    have hnn : (assignLocalIds css hI numOwned numGlobal).numNodes
        = (assignLocalIds css hI numOwned numGlobal).localToGlobalVector.length :=
      hfInv.nn
    omega
  have hL2G : L2Gvec (assignLocalIds css hI numOwned numGlobal) l
      = (assignLocalIds css hI numOwned numGlobal).localToGlobalVector.get ⟨l, hl2⟩ := by
    unfold L2Gvec
    exact getD_eq_get _ l 0 hl2
  rw [hL2G]
  exact hfInv.lk l hl2

/-- Witness for C1: the two-host instance css = [[2,0],[1]] (host ranges
{0,1} and {2}, counters 2, 0, 1), incoming-edge bit set only for gid 1,
numOwned = 2, three global nodes; local id 2 is the ghost 1. -/
theorem c1_g2l_l2g_inverse_witness :
    (ownedPassHosts initPartState 0 [[2, 0], [1]]).numNodes = 2 ∧
    2 < (assignLocalIds [[2, 0], [1]] (fun g => g == 1) 2 3).numNodes ∧
    G2Lmap (assignLocalIds [[2, 0], [1]] (fun g => g == 1) 2 3)
      (L2Gvec (assignLocalIds [[2, 0], [1]] (fun g => g == 1) 2 3) 2) = some 2 :=
  ⟨by decide, by decide,
   c1_g2l_l2g_inverse [[2, 0], [1]] (fun g => g == 1) 2 3 (by decide) 2
     (by decide)⟩

/-- Layout of the local id assignment, claim C3: the final local→global vector
is the owned GIDs (positive counters, in increasing GID order, local ids
[0, numOwned)) followed by the ghosts (incoming edge and not owned, in
increasing GID order, local ids [numOwned, numNodes)); the end-offset array is
the running edge sums of the owned pass followed by one copy of numEdges per
ghost. -/
def assignmentLayoutProp (css : List (List Nat)) (hI : Nat → Bool)
    (numOwned numGlobal : Nat) : Prop :=
  (assignLocalIds css hI numOwned numGlobal).localToGlobalVector
      = posGids 0 css.flatten
        ++ ghostList numGlobal hI (posGids 0 css.flatten) ∧
  (posGids 0 css.flatten).length = numOwned ∧
  (assignLocalIds css hI numOwned numGlobal).numNodes
      = numOwned + (ghostList numGlobal hI (posGids 0 css.flatten)).length ∧
  List.Sorted (· < ·) (posGids 0 css.flatten) ∧
  List.Sorted (· < ·) (ghostList numGlobal hI (posGids 0 css.flatten)) ∧
  (assignLocalIds css hI numOwned numGlobal).numEdges
      = ownedNumEdges 0 css.flatten ∧
  (assignLocalIds css hI numOwned numGlobal).prefixSumOfEdges
      = ownedEndList 0 css.flatten
        ++ List.replicate (ghostList numGlobal hI (posGids 0 css.flatten)).length
            (ownedNumEdges 0 css.flatten)

/-- Claim C3: the owned pass visits GIDs in global order appending every GID
with a positive received counter and extending the end-offset sum by
counter - 1; the ghost pass then appends every GID with a local incoming edge
that is not owned, leaving the sum unchanged; masters therefore occupy local
ids [0, numOwned) in increasing GID order and ghosts [numOwned, numNodes) in
increasing GID order.  Uses the source's assertion (line 528) that the owned
pass produced exactly numOwned nodes. -/
theorem c3_assignment_layout (css : List (List Nat)) (hI : Nat → Bool)
    (numOwned numGlobal : Nat)
    (hA : (ownedPassHosts initPartState 0 css).numNodes = numOwned) :
    assignmentLayoutProp css hI numOwned numGlobal := by
  have hInv1 : MapInv (ownedPassHosts initPartState 0 css) := by
    rw [ownedPassHosts_eq_join]
    exact (ownedPass_mapInv css.flatten initPartState 0 initPartState_mapInv
      (by intro v hv; simp [initPartState] at hv)).1
  have hvec1 : (ownedPassHosts initPartState 0 css).localToGlobalVector
      = posGids 0 css.flatten := by
    rw [ownedPassHosts_eq_join, ownedPass_vec]
    rfl
  have hedges1 : (ownedPassHosts initPartState 0 css).numEdges
      = ownedNumEdges 0 css.flatten := by
    rw [ownedPassHosts_eq_join, ownedPass_numEdges]
    rfl
  have hends1 : (ownedPassHosts initPartState 0 css).prefixSumOfEdges
      = ownedEndList 0 css.flatten := by
    rw [ownedPassHosts_eq_join, ownedPass_ends]
    rfl
  have hNum : (ownedPassHosts initPartState 0 css).localToGlobalVector.length
      = numOwned := by
    rw [← hInv1.nn]
    exact hA
  have hlen : (posGids 0 css.flatten).length = numOwned := by
    rw [← hvec1]
    exact hNum
  obtain ⟨_, hvec, hedges, hends, hnn⟩ :=
    ghostPass_spec numOwned hI (ownedPassHosts initPartState 0 css)
      hInv1 hNum numGlobal
  refine ⟨?_, hlen, ?_, ?_, ?_, ?_, ?_⟩
  · show (assignLocalIds css hI numOwned numGlobal).localToGlobalVector = _
    unfold assignLocalIds
    rw [hvec, hvec1]
  · show (assignLocalIds css hI numOwned numGlobal).numNodes = _
    unfold assignLocalIds
    rw [hnn, hA, hvec1]
  · exact posGids_sorted css.flatten 0
  · show List.Sorted (· < ·) (ghostList numGlobal hI (posGids 0 css.flatten))
    unfold ghostList
    show List.Pairwise (· < ·) _
    exact (List.pairwise_lt_range numGlobal).filter _
  · show (assignLocalIds css hI numOwned numGlobal).numEdges = _
    unfold assignLocalIds
    rw [hedges, hedges1]
  · show (assignLocalIds css hI numOwned numGlobal).prefixSumOfEdges = _
    unfold assignLocalIds
    rw [hends, hends1, hedges1, hvec1]

/-- Witness for C3 at the instance css = [[2,0],[1]], incoming bit on gid 1,
numOwned = 2, three global nodes. -/
theorem c3_assignment_layout_witness :
    (ownedPassHosts initPartState 0 [[2, 0], [1]]).numNodes = 2 ∧
    assignmentLayoutProp [[2, 0], [1]] (fun g => g == 1) 2 3 :=
  ⟨by decide,
   c3_assignment_layout [[2, 0], [1]] (fun g => g == 1) 2 3 (by decide)⟩

end Katana
